import Mathlib

/-!
Verification of the TBD dictionary term search engine.

The embedding translates the two source files:
* `serve.py` — `search_terms` with its three matching modes
  (`"exact"`, `"partial"`, `"fuzzy"`) over an in-memory list of
  English/Turkish term records;
* `convert.py` — `parse_tbd_dictionary`, the ingestion step that turns
  the extracted page texts into term records.

Python strings are sequences of code points, so the string operations the
source uses (`lower`, `strip`, `split`, `in`, `count`, `len`) are modelled
on `String.data : List Char`.  Python floats (similarity scores,
`min_score`) are modelled as `ℚ`.  The third-party `rapidfuzz` scorer
`fuzz.WRatio` is an abstract parameter `scorer : String → String → ℚ`, and
`rapidfuzz.process.extract` is modelled by `extract` below from its
documented contract: score every choice, sort the scored choices by score
descending (stably), and return the first `limit` of them together with
their index into the choice list.  Python's `sorted(..., reverse=True)` is
a stable descending sort, modelled by the stable insertion sort
`sortByDesc`.
-/

namespace TbdDict

/-- A term record: one English/Turkish pair (`{"en": ..., "tr": ...}`). -/
structure Term where
  en : String
  tr : String
deriving DecidableEq, Repr

/-- Python's `str.lower`, applied per code point. -/
def lower (s : String) : String := ⟨s.data.map Char.toLower⟩

/-- Python's `str.strip`: drop whitespace from both ends. -/
def strip (s : String) : String :=
  ⟨((s.data.dropWhile Char.isWhitespace).reverse.dropWhile
      Char.isWhitespace).reverse⟩

/-- Python's substring containment `pat in s`, on code points. -/
def containsSubstr (s pat : String) : Bool :=
  decide (pat.data <:+: s.data)

/-- Occurrences of a single character in a string: Python's
`line.count(':')` for a one-character pattern. -/
def countChar (s : String) (c : Char) : Nat := s.data.count c

/-- Stable descending insertion: `x` is placed after every entry with a
strictly larger key and before every entry with an equal or smaller key. -/
def insertDesc (key : α → ℚ) (x : α) : List α → List α
  | [] => [x]
  | y :: ys => if key x < key y then y :: insertDesc key x ys
               else x :: y :: ys

/-- Stable sort by key, descending: the model of Python's
`sorted(candidates, key=..., reverse=True)` and of the descending ranking
of `rapidfuzz.process.extract`. -/
def sortByDesc (key : α → ℚ) : List α → List α
  | [] => []
  | x :: xs => insertDesc key x (sortByDesc key xs)

/-- Model of `rapidfuzz.process.extract(query, choices, scorer=..., limit=n)`:
the `n` best-scoring choices as `(choice, score, index)` triples, sorted by
score descending; ties keep the order of `choices` (stable sort). -/
def extract (scorer : String → String → ℚ) (query : String)
    (choices : List String) (limit : Nat) : List (String × ℚ × Nat) :=
  (sortByDesc (fun m => m.2.1)
    (choices.enum.map fun p => (p.2, scorer query p.2, p.1))).take limit

/-- One step of the `exact`-mode scan of `search_terms` (serve.py:164-169):
`if lang in ["en","both"] and term["en"].lower() == query_lower: append (term, 100.0)`
`elif lang in ["tr","both"] and term["tr"].lower() == query_lower: append (term, 100.0)`.
The appended element, if any. -/
def exactStep (query_lower lang : String) (term : Term) :
    Option (Term × Option ℚ) :=
  if (lang = "en" ∨ lang = "both") ∧ lower term.en = query_lower then
    some (term, some 100)
  else if (lang = "tr" ∨ lang = "both") ∧ lower term.tr = query_lower then
    some (term, some 100)
  else
    none

/-- One step of the `partial`-mode scan of `search_terms` (serve.py:174-179):
same `if`/`elif` shape with substring containment and score `None`. -/
def substrStep (query_lower lang : String) (term : Term) :
    Option (Term × Option ℚ) :=
  if (lang = "en" ∨ lang = "both") ∧
      containsSubstr (lower term.en) query_lower then
    some (term, none)
  else if (lang = "tr" ∨ lang = "both") ∧
      containsSubstr (lower term.tr) query_lower then
    some (term, none)
  else
    none

/-- The shared scan loop of the `exact` and `partial` modes: process each
term in stored order, append the step's result, and break as soon as
`len(results) >= limit` (serve.py:165-182). -/
def scanLoop (step : Term → Option (Term × Option ℚ)) (limit : Nat) :
    List Term → List (Term × Option ℚ) → List (Term × Option ℚ)
  | [], results => results
  | term :: rest, results =>
    if limit ≤ (results ++ (step term).toList).length then
      results ++ (step term).toList
    else scanLoop step limit rest (results ++ (step term).toList)

/-- The per-language candidate budget of fuzzy mode (serve.py:193,205):
`limit if lang == sole else limit // 2`. -/
def langBudget (lang sole : String) (limit : Nat) : Nat :=
  if lang = sole then limit else limit / 2

/-- One language portion of fuzzy mode (serve.py:188-197, 200-209): extract
the budgeted best matches over the pair list's first components, keep those
with `score >= min_score`, and recover each matched term by its index. -/
def langCandidates (scorer : String → String → ℚ) (query : String)
    (pairs : List (String × Term)) (budget : Nat) (min_score : ℚ) :
    List (Term × ℚ) :=
  (extract scorer query (pairs.map Prod.fst) budget).filterMap fun m =>
    if min_score ≤ m.2.1 then (pairs.get? m.2.2).map fun p => (p.2, m.2.1)
    else none

/-- The dedup key of a fuzzy candidate (serve.py:214). -/
def termKey (p : Term × ℚ) : String × String := (p.1.en, p.1.tr)

/-- The dedup-and-collect loop of fuzzy mode (serve.py:212-219): walk the
sorted candidates, skip `(en, tr)` pairs already seen, append the rest,
and break as soon as `len(results) >= limit`. -/
def dedupTake (limit : Nat) :
    List (Term × ℚ) → List (String × String) → List (Term × ℚ) →
    List (Term × ℚ)
  | [], _, results => results
  | c :: rest, seen, results =>
    if termKey c ∈ seen then dedupTake limit rest seen results
    else if limit ≤ (results ++ [c]).length then results ++ [c]
    else dedupTake limit rest (termKey c :: seen) (results ++ [c])

/-- The merged candidate pool of fuzzy mode (the `candidates` list of
serve.py:185-209): the English portion (guarded by `lang in ["en","both"]`)
followed by the Turkish portion (guarded by `lang in ["tr","both"]`). -/
def fuzzyCandidates (scorer : String → String → ℚ) (terms : List Term)
    (query lang : String) (limit : Nat) (min_score : ℚ) :
    List (Term × ℚ) :=
  (if lang = "en" ∨ lang = "both" then
     langCandidates scorer query (terms.map fun t => (t.en, t))
       (langBudget lang "en" limit) min_score
   else []) ++
  (if lang = "tr" ∨ lang = "both" then
     langCandidates scorer query (terms.map fun t => (t.tr, t))
       (langBudget lang "tr" limit) min_score
   else [])

/-- Fuzzy mode of `search_terms` (serve.py:184-219): build the per-language
candidate pools, merge them, sort by score descending (Python's stable
`sorted(..., reverse=True)`), and deduplicate up to `limit`. -/
def fuzzySearch (scorer : String → String → ℚ) (terms : List Term)
    (query lang : String) (limit : Nat) (min_score : ℚ) :
    List (Term × ℚ) :=
  dedupTake limit
    (sortByDesc (fun c => c.2)
      (fuzzyCandidates scorer terms query lang limit min_score)) [] []

/-- The field a single-language scope compares: `en` for scope `"en"`,
`tr` for scope `"tr"`. -/
def langField (lang : String) (t : Term) : String :=
  if lang = "en" then t.en else t.tr

/-- `search_terms(terms, query, mode, lang, limit, min_score)`
(serve.py:134-221). An empty query returns `[]` immediately; an
unrecognised mode falls through every branch and returns `[]`. -/
def search_terms (scorer : String → String → ℚ) (terms : List Term)
    (query mode lang : String) (limit : Nat) (min_score : ℚ) :
    List (Term × Option ℚ) :=
  if query = "" then []
  else
    if mode = "exact" then scanLoop (exactStep (lower query) lang) limit terms []
    else if mode = "partial" then
      scanLoop (substrStep (lower query) lang) limit terms []
    else if mode = "fuzzy" then
      (fuzzySearch scorer terms query lang limit min_score).map
        fun p => (p.1, some p.2)
    else []

/-! ### Ingestion (convert.py) -/

/-- The header/noise markers skipped by the line filter (convert.py:125). -/
def skipMarkers : List String :=
  ["English", "Türkçe", "terms", "Symbols", "Numbers", ":", "--"]

/-- Helper for `splitFirst`: find the first occurrence of `sep` and return
the code points before it and after it. -/
def splitFirstAux (sep : List Char) :
    List Char → List Char → Option (List Char × List Char)
  | [], _ => none
  | c :: rest, acc =>
    if sep <+: (c :: rest) then
      some (acc, (c :: rest).drop sep.length)
    else splitFirstAux sep rest (acc ++ [c])

/-- Python's `s.split(sep, 1)` when `sep` occurs in `s`: the part before
the first occurrence and the rest after it. -/
def splitFirst (s sep : String) : String × String :=
  match splitFirstAux sep.data s.data [] with
  | some (before, after) => (⟨before⟩, ⟨after⟩)
  | none => (s, "")

/-- Helper for `splitLines`. -/
def splitLinesAux : List Char → List Char → List String
  | [], acc => [⟨acc⟩]
  | c :: rest, acc =>
    if c = '\n' then ⟨acc⟩ :: splitLinesAux rest []
    else splitLinesAux rest (acc ++ [c])

/-- Python's `text.split('\n')`. -/
def splitLines (s : String) : List String := splitLinesAux s.data []

/-- One line of `parse_tbd_dictionary`'s inner loop (convert.py:123-145):
skip header-marker lines (unless they look like a genuine `" : "` pair
with at most two colons), skip blank lines, split the remaining lines on
the first `" : "`, strip both halves, and keep the pair only when both
halves are non-empty and shorter than 200 characters. -/
def processLine (line : String) : Option Term :=
  if (skipMarkers.any fun tok => containsSubstr line tok) ∧
      (containsSubstr line " : " = false ∨ 2 < countChar line ':') then
    none
  else if strip line = "" then none
  else if containsSubstr line " : " then
    if (strip (splitFirst line " : ").1) ≠ "" ∧
        (strip (splitFirst line " : ").2) ≠ "" ∧
        (strip (splitFirst line " : ").1).length < 200 ∧
        (strip (splitFirst line " : ").2).length < 200 then
      some ⟨strip (splitFirst line " : ").1, strip (splitFirst line " : ").2⟩
    else none
  else none

/-- `parse_tbd_dictionary` (convert.py:98-147) over the already-extracted
page texts: pages whose extraction produced no text are skipped
(`if not text: continue`); each remaining page is split into lines and
every line that parses contributes one term record, in order. -/
def parse_tbd_dictionary (pages : List (Option String)) : List Term :=
  pages.foldl
    (fun acc pageText =>
      match pageText with
      | none => acc
      | some text =>
        if text = "" then acc
        else acc ++ ((splitLines text).filterMap processLine))
    []

/-! ### Helper lemmas: the stable descending sort -/

theorem insertDesc_perm {α : Type} (key : α → ℚ) (x : α) :
    ∀ l : List α, List.Perm (insertDesc key x l) (x :: l)
  | [] => by simp [insertDesc]
  | y :: ys => by
    simp only [insertDesc]
    by_cases hlt : key x < key y
    · rw [if_pos hlt]
      exact ((insertDesc_perm key x ys).cons y).trans (List.Perm.swap x y ys)
    · rw [if_neg hlt]

theorem sortByDesc_perm {α : Type} (key : α → ℚ) :
    ∀ l : List α, List.Perm (sortByDesc key l) l
  | [] => List.Perm.refl _
  | x :: xs => by
    simp only [sortByDesc]
    exact (insertDesc_perm key x _).trans ((sortByDesc_perm key xs).cons x)

theorem insertDesc_pairwise {α : Type} (key : α → ℚ) (x : α) :
    ∀ l : List α, l.Pairwise (fun a b => key b ≤ key a) →
      (insertDesc key x l).Pairwise (fun a b => key b ≤ key a)
  | [], _ => by simp [insertDesc]
  | y :: ys, h => by
    rw [List.pairwise_cons] at h
    obtain ⟨hy, hys⟩ := h
    simp only [insertDesc]
    by_cases hlt : key x < key y
    · rw [if_pos hlt, List.pairwise_cons]
      refine ⟨fun z hz => ?_, insertDesc_pairwise key x ys hys⟩
      rcases List.mem_cons.mp ((insertDesc_perm key x ys).mem_iff.mp hz) with rfl | hz'
      · exact le_of_lt hlt
      · exact hy z hz'
    · rw [if_neg hlt, List.pairwise_cons]
      refine ⟨fun z hz => ?_, List.pairwise_cons.mpr ⟨hy, hys⟩⟩
      rcases List.mem_cons.mp hz with rfl | hz'
      · exact le_of_not_lt hlt
      · exact le_trans (hy z hz') (le_of_not_lt hlt)

theorem sortByDesc_pairwise {α : Type} (key : α → ℚ) :
    ∀ l : List α, (sortByDesc key l).Pairwise (fun a b => key b ≤ key a)
  | [] => by simp [sortByDesc]
  | x :: xs => by
    simp only [sortByDesc]
    exact insertDesc_pairwise key x _ (sortByDesc_pairwise key xs)

/-! ### Helper lemmas: the exact/partial scan loop -/

theorem scanLoop_eq (step : Term → Option (Term × Option ℚ)) (limit : Nat) :
    ∀ (l : List Term) (results : List (Term × Option ℚ)),
      results.length < limit →
      scanLoop step limit l results =
        results ++ (l.filterMap step).take (limit - results.length)
  | [], results, _ => by simp [scanLoop]
  | term :: rest, results, h => by
    simp only [scanLoop]
    cases hs : step term with
    | none =>
      simp only [Option.toList_none, List.append_nil]
      rw [if_neg (by omega)]
      rw [scanLoop_eq step limit rest results h]
      simp [List.filterMap_cons, hs]
    | some r =>
      simp only [Option.toList_some]
      by_cases hl : limit ≤ (results ++ [r]).length
      · rw [if_pos hl]
        have h1 : limit - results.length = 1 := by
          simp only [List.length_append, List.length_singleton] at hl
          omega
        simp [List.filterMap_cons, hs, h1]
      · rw [if_neg hl]
        have h2 : (results ++ [r]).length < limit := by omega
        rw [scanLoop_eq step limit rest (results ++ [r]) h2]
        have h3 : limit - results.length =
            (limit - (results ++ [r]).length) + 1 := by
          simp only [List.length_append, List.length_singleton] at h2 ⊢
          omega
        simp [List.filterMap_cons, hs, h3]

theorem scanLoop_none (step : Term → Option (Term × Option ℚ)) (limit : Nat)
    (hstep : ∀ t, step t = none) :
    ∀ l : List Term, scanLoop step limit l [] = []
  | [] => by simp [scanLoop]
  | t :: rest => by
    simp only [scanLoop, hstep t, Option.toList_none, List.append_nil,
      List.nil_append]
    by_cases h0 : limit ≤ ([] : List (Term × Option ℚ)).length
    · rw [if_pos h0]
    · rw [if_neg h0]
      exact scanLoop_none step limit hstep rest

/-! ### Helper lemmas: the fuzzy dedup loop -/

theorem dedupTake_sublist (limit : Nat) :
    ∀ (l : List (Term × ℚ)) (seen : List (String × String))
      (results : List (Term × ℚ)),
      ∃ sub, sub.Sublist l ∧ dedupTake limit l seen results = results ++ sub
  | [], _, results => ⟨[], List.nil_sublist _, by simp [dedupTake]⟩
  | c :: rest, seen, results => by
    simp only [dedupTake]
    by_cases hm : termKey c ∈ seen
    · rw [if_pos hm]
      obtain ⟨sub, hsub, heq⟩ := dedupTake_sublist limit rest seen results
      exact ⟨sub, hsub.cons c, heq⟩
    · rw [if_neg hm]
      by_cases hl : limit ≤ (results ++ [c]).length
      · rw [if_pos hl]
        exact ⟨[c], (List.nil_sublist rest).cons₂ c, rfl⟩
      · rw [if_neg hl]
        obtain ⟨sub, hsub, heq⟩ :=
          dedupTake_sublist limit rest (termKey c :: seen) (results ++ [c])
        exact ⟨c :: sub, hsub.cons₂ c, by simp [heq]⟩

theorem dedupTake_length_le (limit : Nat) :
    ∀ (l : List (Term × ℚ)) (seen : List (String × String))
      (results : List (Term × ℚ)), results.length < limit →
      (dedupTake limit l seen results).length ≤ limit
  | [], _, results, h => by simp only [dedupTake]; omega
  | c :: rest, seen, results, h => by
    simp only [dedupTake]
    by_cases hm : termKey c ∈ seen
    · rw [if_pos hm]
      exact dedupTake_length_le limit rest seen results h
    · rw [if_neg hm]
      by_cases hl : limit ≤ (results ++ [c]).length
      · rw [if_pos hl]
        simp only [List.length_append, List.length_singleton]
        omega
      · rw [if_neg hl]
        exact dedupTake_length_le limit rest _ _ (by omega)

theorem dedupTake_nodup (limit : Nat) :
    ∀ (l : List (Term × ℚ)) (seen : List (String × String))
      (results : List (Term × ℚ)),
      (results.map termKey).Nodup →
      (∀ r ∈ results, termKey r ∈ seen) →
      ((dedupTake limit l seen results).map termKey).Nodup
  | [], _, results, hnd, _ => by simpa [dedupTake] using hnd
  | c :: rest, seen, results, hnd, hseen => by
    simp only [dedupTake]
    by_cases hm : termKey c ∈ seen
    · rw [if_pos hm]
      exact dedupTake_nodup limit rest seen results hnd hseen
    · rw [if_neg hm]
      have hkey : termKey c ∉ results.map termKey := by
        intro hc
        obtain ⟨r, hr, hrk⟩ := List.mem_map.mp hc
        exact hm (hrk ▸ hseen r hr)
      have hnd' : ((results ++ [c]).map termKey).Nodup := by
        rw [List.map_append]
        refine List.Nodup.append hnd (by simp) ?_
        intro a ha hb
        simp only [List.map_singleton, List.mem_singleton] at hb
        subst hb
        exact hkey ha
      by_cases hl : limit ≤ (results ++ [c]).length
      · rw [if_pos hl]
        exact hnd'
      · rw [if_neg hl]
        refine dedupTake_nodup limit rest _ _ hnd' ?_
        intro r hr
        rcases List.mem_append.mp hr with hr' | hr'
        · exact List.mem_cons_of_mem _ (hseen r hr')
        · simp only [List.mem_singleton] at hr'
          subst hr'
          exact List.mem_cons_self _ _

/-- Every candidate a language portion produces scored at least
`min_score`. -/
theorem langCandidates_score (scorer : String → String → ℚ) (query : String)
    (pairs : List (String × Term)) (budget : Nat) (min_score : ℚ) :
    ∀ c ∈ langCandidates scorer query pairs budget min_score,
      min_score ≤ c.2 := by
  intro c hc
  obtain ⟨m, _, hv⟩ := List.mem_filterMap.mp hc
  by_cases hms : min_score ≤ m.2.1
  · rw [if_pos hms] at hv
    obtain ⟨p, _, hp⟩ := Option.map_eq_some'.mp hv
    rw [← hp]
    exact hms
  · rw [if_neg hms] at hv
    exact absurd hv (by simp)

/-! ### Helper lemmas: extract and the mode dispatch -/

theorem extract_budget_one (scorer : String → String → ℚ) (query : String)
    (choices : List String) (h : choices ≠ []) :
    ∃ m, extract scorer query choices 1 = [m] ∧ m.2.2 < choices.length ∧
      ∀ a ∈ choices, scorer query a ≤ m.2.1 := by
  have hperm := sortByDesc_perm (fun m : String × ℚ × Nat => m.2.1)
    (choices.enum.map fun p => (p.2, scorer query p.2, p.1))
  have hlen : (sortByDesc (fun m : String × ℚ × Nat => m.2.1)
      (choices.enum.map fun p => (p.2, scorer query p.2, p.1))).length =
      choices.length := by
    rw [hperm.length_eq]
    simp
  have hne : sortByDesc (fun m => m.2.1)
      (choices.enum.map fun p => (p.2, scorer query p.2, p.1)) ≠ [] := by
    intro hnil
    rw [hnil] at hlen
    exact h (List.length_eq_zero.mp hlen.symm)
  obtain ⟨m, t, hmt⟩ := List.exists_cons_of_ne_nil hne
  have hm : m ∈ choices.enum.map fun p => (p.2, scorer query p.2, p.1) := by
    rw [← (sortByDesc_perm (fun m => m.2.1) _).mem_iff, hmt]
    exact List.mem_cons_self _ _
  refine ⟨m, ?_, ?_, ?_⟩
  · rw [extract, hmt]
    rfl
  · obtain ⟨p, hp, hpm⟩ := List.mem_map.mp hm
    have hg : choices[p.1]? = some p.2 :=
      List.mk_mem_enum_iff_getElem?.mp hp
    have : p.1 < choices.length := by
      by_contra hge
      rw [List.getElem?_eq_none (by omega)] at hg
      cases hg
    rw [← hpm]
    exact this
  · intro a ha
    obtain ⟨i, hi, hia⟩ := List.mem_iff_getElem.mp ha
    have henum : (i, a) ∈ choices.enum := by
      rw [List.mk_mem_enum_iff_getElem?]
      rw [List.getElem?_eq_getElem hi, hia]
    have hsc : (a, scorer query a, i) ∈
        choices.enum.map fun p => (p.2, scorer query p.2, p.1) :=
      List.mem_map.mpr ⟨(i, a), henum, rfl⟩
    rw [← (sortByDesc_perm (fun m => m.2.1) _).mem_iff, hmt] at hsc
    rcases List.mem_cons.mp hsc with heq | hmem
    · rw [← heq]
    · have hpw := sortByDesc_pairwise (fun m => m.2.1)
        (choices.enum.map fun p => (p.2, scorer query p.2, p.1))
      rw [hmt, List.pairwise_cons] at hpw
      exact hpw.1 _ hmem

theorem langCandidates_budget_one (scorer : String → String → ℚ)
    (query : String) (pairs : List (String × Term)) (min_score : ℚ)
    (hp : ∃ p ∈ pairs, min_score ≤ scorer query p.1) :
    ∃ c, langCandidates scorer query pairs 1 min_score = [c] ∧
      min_score ≤ c.2 := by
  obtain ⟨p, hpmem, hps⟩ := hp
  have hchoices : pairs.map Prod.fst ≠ [] := by
    intro h0
    rw [List.map_eq_nil_iff] at h0
    rw [h0] at hpmem
    cases hpmem
  obtain ⟨m, hex, hidx, hmax⟩ :=
    extract_budget_one scorer query (pairs.map Prod.fst) hchoices
  have hms : min_score ≤ m.2.1 :=
    le_trans hps (hmax p.1 (List.mem_map_of_mem Prod.fst hpmem))
  have hlt : m.2.2 < pairs.length := by
    simpa using hidx
  have hq : pairs[m.2.2]? = some pairs[m.2.2] := List.getElem?_eq_getElem hlt
  refine ⟨(pairs[m.2.2].2, m.2.1), ?_, hms⟩
  rw [langCandidates, hex]
  simp [List.filterMap_cons, if_pos hms, hq]

theorem search_terms_exact (scorer : String → String → ℚ)
    (terms : List Term) (query lang : String) (limit : Nat) (ms : ℚ)
    (hq : query ≠ "") :
    search_terms scorer terms query "exact" lang limit ms =
      scanLoop (exactStep (lower query) lang) limit terms [] := by
  rw [search_terms, if_neg hq, if_pos rfl]

theorem search_terms_substr (scorer : String → String → ℚ)
    (terms : List Term) (query lang : String) (limit : Nat) (ms : ℚ)
    (hq : query ≠ "") :
    search_terms scorer terms query "partial" lang limit ms =
      scanLoop (substrStep (lower query) lang) limit terms [] := by
  rw [search_terms, if_neg hq, if_neg (by decide), if_pos rfl]

theorem search_terms_fuzzy (scorer : String → String → ℚ)
    (terms : List Term) (query lang : String) (limit : Nat) (ms : ℚ)
    (hq : query ≠ "") :
    search_terms scorer terms query "fuzzy" lang limit ms =
      (fuzzySearch scorer terms query lang limit ms).map
        fun p => (p.1, some p.2) := by
  rw [search_terms, if_neg hq, if_neg (by decide), if_neg (by decide),
    if_pos rfl]

theorem fuzzySearch_en (scorer : String → String → ℚ) (terms : List Term)
    (query : String) (limit : Nat) (ms : ℚ) :
    fuzzySearch scorer terms query "en" limit ms =
      dedupTake limit (sortByDesc (fun c => c.2)
        (langCandidates scorer query (terms.map fun t => (t.en, t))
          limit ms)) [] [] := by
  rw [fuzzySearch, fuzzyCandidates]
  rw [if_pos (by decide : ("en" = "en" ∨ "en" = "both")),
    if_neg (by decide : ¬("en" = "tr" ∨ "en" = "both"))]
  simp [langBudget]

theorem fuzzySearch_tr (scorer : String → String → ℚ) (terms : List Term)
    (query : String) (limit : Nat) (ms : ℚ) :
    fuzzySearch scorer terms query "tr" limit ms =
      dedupTake limit (sortByDesc (fun c => c.2)
        (langCandidates scorer query (terms.map fun t => (t.tr, t))
          limit ms)) [] [] := by
  rw [fuzzySearch, fuzzyCandidates]
  rw [if_neg (by decide : ¬("tr" = "en" ∨ "tr" = "both")),
    if_pos (by decide : ("tr" = "tr" ∨ "tr" = "both"))]
  simp [langBudget]

/-- Every merged fuzzy candidate scored at least `min_score`. -/
theorem fuzzyCandidates_score (scorer : String → String → ℚ)
    (terms : List Term) (query lang : String) (limit : Nat) (ms : ℚ) :
    ∀ c ∈ fuzzyCandidates scorer terms query lang limit ms, ms ≤ c.2 := by
  intro c hc
  rw [fuzzyCandidates] at hc
  rcases List.mem_append.mp hc with h | h
  · by_cases he : lang = "en" ∨ lang = "both"
    · rw [if_pos he] at h
      exact langCandidates_score _ _ _ _ _ c h
    · rw [if_neg he] at h
      cases h
  · by_cases ht : lang = "tr" ∨ lang = "both"
    · rw [if_pos ht] at h
      exact langCandidates_score _ _ _ _ _ c h
    · rw [if_neg ht] at h
      cases h

/-- `processLine` only emits records whose two fields are non-empty and
shorter than 200 characters. -/
theorem processLine_invariant (line : String) (t : Term)
    (h : processLine line = some t) :
    t.en ≠ "" ∧ t.tr ≠ "" ∧ t.en.length < 200 ∧ t.tr.length < 200 := by
  rw [processLine] at h
  split_ifs at h with h1 h2 h3 h4
  rw [Option.some_inj] at h
  subst h
  exact ⟨h4.1, h4.2.1, h4.2.2.1, h4.2.2.2⟩

/-! ### The claims -/

/-- C2: in exact mode, with a non-empty query and positive limit, the
result list is exactly the first `limit` records, in the collection's
stored order, whose in-scope field lower-cases to the lower-cased query
(first-N with early stop, not best-N); every result carries score 100 and
its in-scope field, lower-cased, equals the lower-cased query. -/
theorem exact_mode_first_matches (scorer : String → String → ℚ)
    (terms : List Term) (query lang : String) (limit : Nat) (ms : ℚ)
    (hq : query ≠ "") (hlim : 0 < limit) :
    search_terms scorer terms query "exact" lang limit ms =
      (terms.filterMap (exactStep (lower query) lang)).take limit ∧
    ∀ p ∈ search_terms scorer terms query "exact" lang limit ms,
      p.2 = some 100 ∧
      (((lang = "en" ∨ lang = "both") ∧ lower p.1.en = lower query) ∨
       ((lang = "tr" ∨ lang = "both") ∧ lower p.1.tr = lower query)) := by
  have heq : search_terms scorer terms query "exact" lang limit ms =
      (terms.filterMap (exactStep (lower query) lang)).take limit := by
    rw [search_terms_exact scorer terms query lang limit ms hq,
      scanLoop_eq _ _ _ _ (by simpa using hlim)]
    simp
  refine ⟨heq, ?_⟩
  intro p hp
  rw [heq] at hp
  obtain ⟨t, _, hstep⟩ := List.mem_filterMap.mp (List.mem_of_mem_take hp)
  rw [exactStep] at hstep
  by_cases h1 : (lang = "en" ∨ lang = "both") ∧ lower t.en = lower query
  · rw [if_pos h1] at hstep
    cases hstep
    exact ⟨rfl, Or.inl h1⟩
  · rw [if_neg h1] at hstep
    by_cases h2 : (lang = "tr" ∨ lang = "both") ∧ lower t.tr = lower query
    · rw [if_pos h2] at hstep
      cases hstep
      exact ⟨rfl, Or.inr h2⟩
    · rw [if_neg h2] at hstep
      cases hstep

theorem exact_mode_first_matches_witness :
    ("cloud" : String) ≠ "" ∧ 0 < 10 ∧
    search_terms (fun _ _ => 0) [⟨"cloud", "bulut"⟩] "cloud" "exact" "both"
        10 60 =
      (([⟨"cloud", "bulut"⟩] : List Term).filterMap
        (exactStep (lower "cloud") "both")).take 10 :=
  ⟨by decide, by decide,
   (exact_mode_first_matches (fun _ _ => 0) [⟨"cloud", "bulut"⟩] "cloud"
     "both" 10 60 (by decide) (by decide)).1⟩

/-- C3: in partial mode, with a non-empty query and positive limit, the
result list is exactly the first `limit` records, in stored order, whose
in-scope field (lower-cased) contains the lower-cased query as a substring
(the same first-N, stop-at-limit policy as exact mode); every result
carries no score. -/
theorem substr_mode_first_matches (scorer : String → String → ℚ)
    (terms : List Term) (query lang : String) (limit : Nat) (ms : ℚ)
    (hq : query ≠ "") (hlim : 0 < limit) :
    search_terms scorer terms query "partial" lang limit ms =
      (terms.filterMap (substrStep (lower query) lang)).take limit ∧
    ∀ p ∈ search_terms scorer terms query "partial" lang limit ms,
      p.2 = none ∧
      (((lang = "en" ∨ lang = "both") ∧
          containsSubstr (lower p.1.en) (lower query) = true) ∨
       ((lang = "tr" ∨ lang = "both") ∧
          containsSubstr (lower p.1.tr) (lower query) = true)) := by
  have heq : search_terms scorer terms query "partial" lang limit ms =
      (terms.filterMap (substrStep (lower query) lang)).take limit := by
    rw [search_terms_substr scorer terms query lang limit ms hq,
      scanLoop_eq _ _ _ _ (by simpa using hlim)]
    simp
  refine ⟨heq, ?_⟩
  intro p hp
  rw [heq] at hp
  obtain ⟨t, _, hstep⟩ := List.mem_filterMap.mp (List.mem_of_mem_take hp)
  rw [substrStep] at hstep
  by_cases h1 : (lang = "en" ∨ lang = "both") ∧
      containsSubstr (lower t.en) (lower query) = true
  · rw [if_pos h1] at hstep
    cases hstep
    exact ⟨rfl, Or.inl h1⟩
  · rw [if_neg h1] at hstep
    by_cases h2 : (lang = "tr" ∨ lang = "both") ∧
        containsSubstr (lower t.tr) (lower query) = true
    · rw [if_pos h2] at hstep
      cases hstep
      exact ⟨rfl, Or.inr h2⟩
    · rw [if_neg h2] at hstep
      cases hstep

theorem substr_mode_first_matches_witness :
    ("data" : String) ≠ "" ∧ 0 < 10 ∧
    search_terms (fun _ _ => 0) [⟨"database", "veritabani"⟩] "data" "partial"
        "en" 10 60 =
      (([⟨"database", "veritabani"⟩] : List Term).filterMap
        (substrStep (lower "data") "en")).take 10 :=
  ⟨by decide, by decide,
   (substr_mode_first_matches (fun _ _ => 0) [⟨"database", "veritabani"⟩]
     "data" "en" 10 60 (by decide) (by decide)).1⟩

/-- C4: for every mode, language scope, query and min_score, with a
positive limit the returned list never exceeds `limit` elements. -/
theorem search_length_le_limit (scorer : String → String → ℚ)
    (terms : List Term) (query mode lang : String) (limit : Nat) (ms : ℚ)
    (hlim : 0 < limit) :
    (search_terms scorer terms query mode lang limit ms).length ≤ limit := by
  rw [search_terms]
  by_cases hq : query = ""
  · rw [if_pos hq]
    simp
  · rw [if_neg hq]
    by_cases hm1 : mode = "exact"
    · rw [if_pos hm1, scanLoop_eq _ _ _ _ (by simpa using hlim)]
      simp only [List.nil_append, List.length_take]
      omega
    · rw [if_neg hm1]
      by_cases hm2 : mode = "partial"
      · rw [if_pos hm2, scanLoop_eq _ _ _ _ (by simpa using hlim)]
        simp only [List.nil_append, List.length_take]
        omega
      · rw [if_neg hm2]
        by_cases hm3 : mode = "fuzzy"
        · rw [if_pos hm3, List.length_map, fuzzySearch]
          exact dedupTake_length_le limit _ _ _ (by simpa using hlim)
        · rw [if_neg hm3]
          simp

theorem search_length_le_limit_witness :
    0 < 5 ∧
    (search_terms (fun _ _ => 100) [⟨"a", "b"⟩, ⟨"c", "d"⟩] "x" "fuzzy"
      "both" 5 60).length ≤ 5 :=
  ⟨by decide,
   search_length_le_limit (fun _ _ => 100) [⟨"a", "b"⟩, ⟨"c", "d"⟩] "x"
     "fuzzy" "both" 5 60 (by decide)⟩

/-- C5 counterexample: an unsupported mode (here `"best"`) and an
unsupported scope (here `"en-tr"`) do not raise any "unsupported
mode/scope" error — `search_terms` is a total function that silently
returns an ordinary (empty) result list in both cases. -/
theorem invalid_mode_scope_cex :
    search_terms (fun _ _ => 0) [⟨"cloud", "bulut"⟩] "cloud" "best" "both"
        10 60 = [] ∧
    search_terms (fun _ _ => 0) [⟨"cloud", "bulut"⟩] "cloud" "exact" "en-tr"
        10 60 = [] := by
  constructor
  · decide
  · decide

/-- C5 (amended): for every mode outside `{exact, partial, fuzzy}` and
every scope outside `{en, tr, both}`, `search_terms` silently returns the
empty result list; no error is raised and no default mode is applied. -/
theorem invalid_mode_scope_empty (scorer : String → String → ℚ)
    (terms : List Term) (query mode lang : String) (limit : Nat) (ms : ℚ)
    (h : (mode ≠ "exact" ∧ mode ≠ "partial" ∧ mode ≠ "fuzzy") ∨
         (lang ≠ "en" ∧ lang ≠ "tr" ∧ lang ≠ "both")) :
    search_terms scorer terms query mode lang limit ms = [] := by
  rw [search_terms]
  by_cases hq : query = ""
  · rw [if_pos hq]
  · rw [if_neg hq]
    rcases h with ⟨h1, h2, h3⟩ | ⟨h1, h2, h3⟩
    · rw [if_neg h1, if_neg h2, if_neg h3]
    · have hlang : ∀ s : String, ¬(lang = s ∨ lang = "both") ∨
          (s ≠ "en" ∧ s ≠ "tr") := by
        intro s
        by_cases hs : lang = s ∨ lang = "both"
        · rcases hs with rfl | rfl
          · right
            exact ⟨h1, h2⟩
          · exact absurd rfl h3
        · exact Or.inl hs
      have hen : ¬(lang = "en" ∨ lang = "both") := by
        rcases hlang "en" with h' | h'
        · exact h'
        · exact absurd rfl h'.1
      have htr : ¬(lang = "tr" ∨ lang = "both") := by
        rcases hlang "tr" with h' | h'
        · exact h'
        · exact absurd rfl h'.2
      by_cases hm1 : mode = "exact"
      · rw [if_pos hm1]
        apply scanLoop_none
        intro t
        rw [exactStep, if_neg, if_neg]
        · rintro ⟨hl, _⟩
          exact htr hl
        · rintro ⟨hl, _⟩
          exact hen hl
      · rw [if_neg hm1]
        by_cases hm2 : mode = "partial"
        · rw [if_pos hm2]
          apply scanLoop_none
          intro t
          rw [substrStep, if_neg, if_neg]
          · rintro ⟨hl, _⟩
            exact htr hl
          · rintro ⟨hl, _⟩
            exact hen hl
        · rw [if_neg hm2]
          by_cases hm3 : mode = "fuzzy"
          · rw [if_pos hm3, fuzzySearch, fuzzyCandidates,
              if_neg hen, if_neg htr]
            simp [sortByDesc, dedupTake]
          · rw [if_neg hm3]

theorem invalid_mode_scope_empty_witness :
    (("best" ≠ "exact" ∧ "best" ≠ "partial" ∧ "best" ≠ "fuzzy") ∨
     (("both" : String) ≠ "en" ∧ "both" ≠ "tr" ∧ "both" ≠ "both")) ∧
    search_terms (fun _ _ => 0) [⟨"a", "b"⟩] "a" "best" "both" 3 60 = [] :=
  ⟨Or.inl (by decide),
   invalid_mode_scope_empty (fun _ _ => 0) [⟨"a", "b"⟩] "a" "best" "both"
     3 60 (Or.inl (by decide))⟩

/-- C6: the per-language candidate budget `search_terms` passes to the
fuzzy ranker (`extract`) is `limit` for a sole-scope language and
`limit / 2` (integer division) under scope `both`; hence for an odd limit
the two `both`-scope budgets sum to `limit - 1`. -/
theorem fuzzy_budget_split (limit : Nat) (hlim : 0 < limit) :
    langBudget "en" "en" limit = limit ∧
    langBudget "tr" "tr" limit = limit ∧
    langBudget "both" "en" limit = limit / 2 ∧
    langBudget "both" "tr" limit = limit / 2 ∧
    (limit % 2 = 1 →
      langBudget "both" "en" limit + langBudget "both" "tr" limit =
        limit - 1) := by
  refine ⟨by simp [langBudget], by simp [langBudget],
    by simp [langBudget], by simp [langBudget], fun hodd => ?_⟩
  rw [langBudget, if_neg (by decide), langBudget, if_neg (by decide)]
  omega

theorem fuzzy_budget_split_witness :
    0 < 7 ∧ 7 % 2 = 1 ∧
    langBudget "both" "en" 7 + langBudget "both" "tr" 7 = 7 - 1 :=
  ⟨by decide, by decide, (fuzzy_budget_split 7 (by decide)).2.2.2.2 (by decide)⟩

/-- C8: `search_terms` is deterministic — two invocations with identical
arguments against the same (unmodified) collection return identical
ordered output. -/
theorem search_terms_deterministic (scorer : String → String → ℚ)
    (terms₁ terms₂ : List Term) (query₁ query₂ mode₁ mode₂ lang₁ lang₂ : String)
    (limit₁ limit₂ : Nat) (ms₁ ms₂ : ℚ)
    (ht : terms₁ = terms₂) (hq : query₁ = query₂) (hm : mode₁ = mode₂)
    (hl : lang₁ = lang₂) (hlim : limit₁ = limit₂) (hms : ms₁ = ms₂) :
    search_terms scorer terms₁ query₁ mode₁ lang₁ limit₁ ms₁ =
      search_terms scorer terms₂ query₂ mode₂ lang₂ limit₂ ms₂ := by
  subst ht
  subst hq
  subst hm
  subst hl
  subst hlim
  subst hms
  rfl

theorem search_terms_deterministic_witness :
    search_terms (fun _ _ => 80) [⟨"cloud", "bulut"⟩] "cloud" "fuzzy" "both"
        10 60 =
      search_terms (fun _ _ => 80) [⟨"cloud", "bulut"⟩] "cloud" "fuzzy"
        "both" 10 60 :=
  search_terms_deterministic (fun _ _ => 80) [⟨"cloud", "bulut"⟩]
    [⟨"cloud", "bulut"⟩] "cloud" "cloud" "fuzzy" "fuzzy" "both" "both"
    10 10 60 60 rfl rfl rfl rfl rfl rfl

/-- C10: in exact and partial modes under scope `both`, each record
contributes at most one result per scan step even when both of its fields
match; and whenever the English field matches, the record is emitted
through the English branch — the conclusion holds with no assumption
whatsoever on the Turkish field, which is therefore never examined. -/
theorem both_scope_single_contribution (query_lower : String) (term : Term) :
    (exactStep query_lower "both" term).toList.length ≤ 1 ∧
    (substrStep query_lower "both" term).toList.length ≤ 1 ∧
    (lower term.en = query_lower →
      exactStep query_lower "both" term = some (term, some 100)) ∧
    (containsSubstr (lower term.en) query_lower = true →
      substrStep query_lower "both" term = some (term, none)) := by
  refine ⟨?_, ?_, ?_, ?_⟩
  · cases exactStep query_lower "both" term <;> simp
  · cases substrStep query_lower "both" term <;> simp
  · intro hen
    rw [exactStep, if_pos ⟨Or.inr rfl, hen⟩]
  · intro hen
    rw [substrStep, if_pos ⟨Or.inr rfl, hen⟩]

theorem both_scope_single_contribution_witness :
    lower (Term.en ⟨"x", "x"⟩) = "x" ∧
    containsSubstr (lower (Term.en ⟨"x", "x"⟩)) "x" = true ∧
    exactStep "x" "both" ⟨"x", "x"⟩ = some (⟨"x", "x"⟩, some 100) ∧
    substrStep "x" "both" ⟨"x", "x"⟩ = some (⟨"x", "x"⟩, none) :=
  ⟨by decide, by decide,
   (both_scope_single_contribution "x" ⟨"x", "x"⟩).2.2.1 (by decide),
   (both_scope_single_contribution "x" ⟨"x", "x"⟩).2.2.2 (by decide)⟩

/-- C1: in fuzzy mode, with a non-empty query and a min_score in [0, 100],
every returned result carries a score at least `min_score`, the result
list is sorted by score descending, and no `(english, turkish)` pair
occurs twice in it. -/
theorem fuzzy_results_filtered_sorted_nodup (scorer : String → String → ℚ)
    (terms : List Term) (query lang : String) (limit : Nat) (ms : ℚ)
    (hq : query ≠ "") (_h0 : 0 ≤ ms) (_h1 : ms ≤ 100) :
    (∀ p ∈ search_terms scorer terms query "fuzzy" lang limit ms,
       ∃ s, p.2 = some s ∧ ms ≤ s) ∧
    (search_terms scorer terms query "fuzzy" lang limit ms).Pairwise
      (fun a b => b.2.getD 0 ≤ a.2.getD 0) ∧
    ((search_terms scorer terms query "fuzzy" lang limit ms).map
       fun p => (p.1.en, p.1.tr)).Nodup := by
  rw [search_terms_fuzzy scorer terms query lang limit ms hq, fuzzySearch]
  obtain ⟨sub, hsub, heq⟩ := dedupTake_sublist limit
    (sortByDesc (fun c => c.2)
      (fuzzyCandidates scorer terms query lang limit ms)) [] []
  rw [heq, List.nil_append]
  have hmemc : ∀ p ∈ sub, ms ≤ p.2 := by
    intro p hp
    exact fuzzyCandidates_score scorer terms query lang limit ms p
      ((sortByDesc_perm (fun c : Term × ℚ => c.2) _).mem_iff.mp
        (hsub.subset hp))
  refine ⟨?_, ?_, ?_⟩
  · intro p hp
    obtain ⟨p', hp', rfl⟩ := List.mem_map.mp hp
    exact ⟨p'.2, rfl, hmemc p' hp'⟩
  · have hpw : sub.Pairwise (fun a b : Term × ℚ => b.2 ≤ a.2) :=
      List.Pairwise.sublist hsub
        (sortByDesc_pairwise (fun c : Term × ℚ => c.2) _)
    refine List.pairwise_map.mpr ?_
    exact hpw.imp (fun hab => by simpa using hab)
  · have hnd := dedupTake_nodup limit
      (sortByDesc (fun c => c.2)
        (fuzzyCandidates scorer terms query lang limit ms)) [] []
      (by simp) (by simp)
    rw [heq, List.nil_append] at hnd
    rw [List.map_map]
    exact hnd

theorem fuzzy_results_filtered_sorted_nodup_witness :
    ("cloud" : String) ≠ "" ∧ (0 : ℚ) ≤ 60 ∧ (60 : ℚ) ≤ 100 ∧
    ∀ p ∈ search_terms (fun _ _ => 80) [⟨"cloud", "bulut"⟩] "cloud" "fuzzy"
        "both" 10 60, ∃ s, p.2 = some s ∧ (60 : ℚ) ≤ s :=
  ⟨by decide, by decide, by decide,
   (fuzzy_results_filtered_sorted_nodup (fun _ _ => 80) [⟨"cloud", "bulut"⟩]
     "cloud" "both" 10 60 (by decide) (by decide) (by decide)).1⟩

/-- C7 counterexample: a collection with two distinct records, every field
scoring 100 ≥ min_score 60, searched in fuzzy mode with `limit = 1` under
scope `both`, returns no result at all (each per-language budget is
`1 / 2 = 0`) — not exactly one result as the claim states. -/
theorem fuzzy_limit_one_both_cex :
    (⟨"a", "b"⟩ : Term) ≠ ⟨"c", "d"⟩ ∧
    (60 : ℚ) ≤ (fun (_ _ : String) => (100 : ℚ)) "x" "a" ∧
    search_terms (fun _ _ => (100 : ℚ)) [⟨"a", "b"⟩, ⟨"c", "d"⟩] "x" "fuzzy"
      "both" 1 60 = [] :=
  ⟨by decide, by decide, by decide⟩

/-- C7 (amended): when at least two fuzzy matches with equal score at or
above `min_score` exist, a fuzzy search with `limit = 1` under a
single-language scope (`"en"` or `"tr"`) returns exactly one result,
chosen deterministically as the first candidate after the descending sort;
under scope `"both"` with `limit = 1` the per-language budget `1 / 2 = 0`
instead makes the result list empty (see the counterexample). -/
theorem fuzzy_limit_one_single_scope (scorer : String → String → ℚ)
    (terms : List Term) (query : String) (ms : ℚ) (lang : String)
    (hq : query ≠ "") (hl : lang = "en" ∨ lang = "tr")
    (h2 : ∃ t₁ ∈ terms, ∃ t₂ ∈ terms, t₁ ≠ t₂ ∧
      scorer query (langField lang t₁) = scorer query (langField lang t₂) ∧
      ms ≤ scorer query (langField lang t₁)) :
    (search_terms scorer terms query "fuzzy" lang 1 ms).length = 1 := by
  obtain ⟨t₁, ht₁, t₂, ht₂, hne, hqe, hsc⟩ := h2
  rcases hl with rfl | rfl
  · rw [search_terms_fuzzy scorer terms query "en" 1 ms hq, fuzzySearch_en]
    have hsc' : ms ≤ scorer query t₁.en := by
      rw [langField, if_pos rfl] at hsc
      exact hsc
    obtain ⟨c, hc, _⟩ := langCandidates_budget_one scorer query
      (terms.map fun t => (t.en, t)) ms
      ⟨(t₁.en, t₁), List.mem_map_of_mem _ ht₁, hsc'⟩
    rw [hc]
    simp [sortByDesc, insertDesc, dedupTake]
  · rw [search_terms_fuzzy scorer terms query "tr" 1 ms hq, fuzzySearch_tr]
    have hsc' : ms ≤ scorer query t₁.tr := by
      rw [langField, if_neg (by decide)] at hsc
      exact hsc
    obtain ⟨c, hc, _⟩ := langCandidates_budget_one scorer query
      (terms.map fun t => (t.tr, t)) ms
      ⟨(t₁.tr, t₁), List.mem_map_of_mem _ ht₁, hsc'⟩
    rw [hc]
    simp [sortByDesc, insertDesc, dedupTake]

theorem fuzzy_limit_one_single_scope_witness :
    ("x" : String) ≠ "" ∧
    (("en" : String) = "en" ∨ ("en" : String) = "tr") ∧
    (∃ t₁ ∈ ([⟨"a", "b"⟩, ⟨"c", "d"⟩] : List Term),
     ∃ t₂ ∈ ([⟨"a", "b"⟩, ⟨"c", "d"⟩] : List Term), t₁ ≠ t₂ ∧
      (fun (_ _ : String) => (100 : ℚ)) "x" (langField "en" t₁) =
        (fun (_ _ : String) => (100 : ℚ)) "x" (langField "en" t₂) ∧
      (60 : ℚ) ≤ (fun (_ _ : String) => (100 : ℚ)) "x" (langField "en" t₁)) ∧
    (search_terms (fun _ _ => (100 : ℚ)) [⟨"a", "b"⟩, ⟨"c", "d"⟩] "x"
      "fuzzy" "en" 1 60).length = 1 :=
  ⟨by decide, by decide, by decide,
   fuzzy_limit_one_single_scope (fun _ _ => (100 : ℚ))
     [⟨"a", "b"⟩, ⟨"c", "d"⟩] "x" 60 "en" (by decide) (by decide)
     (by decide)⟩

/-- C9: every record emitted by the ingestion step
(`parse_tbd_dictionary`) has a non-empty English field, a non-empty
Turkish field, and both fields strictly shorter than 200 characters. -/
theorem parse_terms_invariant :
    ∀ (pages : List (Option String)), ∀ t ∈ parse_tbd_dictionary pages,
      t.en ≠ "" ∧ t.tr ≠ "" ∧ t.en.length < 200 ∧ t.tr.length < 200 := by
  have hfold : ∀ (pages : List (Option String)) (acc : List Term),
      (∀ t ∈ acc, t.en ≠ "" ∧ t.tr ≠ "" ∧ t.en.length < 200 ∧
        t.tr.length < 200) →
      ∀ t ∈ pages.foldl
        (fun acc pageText =>
          match pageText with
          | none => acc
          | some text =>
            if text = "" then acc
            else acc ++ ((splitLines text).filterMap processLine)) acc,
        t.en ≠ "" ∧ t.tr ≠ "" ∧ t.en.length < 200 ∧ t.tr.length < 200 := by
    intro pages
    induction pages with
    | nil =>
      intro acc hacc
      simpa using hacc
    | cons page rest ih =>
      intro acc hacc
      rw [List.foldl_cons]
      apply ih
      cases page with
      | none => exact hacc
      | some text =>
        intro t htm
        have htm' : t ∈ (if text = "" then acc
            else acc ++ ((splitLines text).filterMap processLine)) := htm
        by_cases ht : text = ""
        · rw [if_pos ht] at htm'
          exact hacc t htm'
        · rw [if_neg ht] at htm'
          rcases List.mem_append.mp htm' with h | h
          · exact hacc t h
          · obtain ⟨line, _, hline⟩ := List.mem_filterMap.mp h
            exact processLine_invariant line t hline
  intro pages
  rw [parse_tbd_dictionary]
  exact hfold pages [] (by simp)

theorem parse_terms_invariant_witness :
    (⟨"cloud", "bulut"⟩ : Term) ∈
      parse_tbd_dictionary [some "cloud : bulut"] ∧
    (Term.en ⟨"cloud", "bulut"⟩ ≠ "" ∧ Term.tr ⟨"cloud", "bulut"⟩ ≠ "" ∧
     (Term.en ⟨"cloud", "bulut"⟩).length < 200 ∧
     (Term.tr ⟨"cloud", "bulut"⟩).length < 200) :=
  ⟨by decide,
   parse_terms_invariant [some "cloud : bulut"] ⟨"cloud", "bulut"⟩
     (by decide)⟩

end TbdDict
